import Mathlib

/-!
Verification development for the MIC toolbox estimation core.

The repository snapshot contains only the demonstration notebooks that call
the core operations (mt.bin_quant, mt.corr_perm, mt.train, mt.score, T.desc);
the implementation module mic.toolbox itself is not part of the snapshot.
All definitions below are therefore modelled from the specification document,
faithful to its words, and the claims are settled against this model.
Real values are modelled as rationals so that every definition is executable
and every predicate decidable.
-/

/-! ## Definitions -/

/-- Modelled from the spec: the quantizer of mic.toolbox is missing from the
snapshot.  Width of one quantization bin for a variable with bounds lb, ub
and resolution r: binWidth = (ub - lb) / 2 ^ r. -/
def binWidth (lb ub : ℚ) (r : ℕ) : ℚ := (ub - lb) / 2 ^ r

/-- Modelled from the spec: observations are clipped into the declared range
rather than rejected. -/
def clipQ (lb ub v : ℚ) : ℚ := max lb (min ub v)

/-- Modelled from the spec: linear map of the clipped value into 2 ^ r
equal-width bins; the code is the bin index, clamped to the top bin when the
value sits on the upper bound. -/
def qcode (lb ub : ℚ) (r : ℕ) (v : ℚ) : ℕ :=
  min (2 ^ r - 1) (Int.toNat ⌊(clipQ lb ub v - lb) / binWidth lb ub r⌋)

/-- Modelled from the spec: reconstructed value of a code, using the bin
midpoint (the spec allows midpoint or left edge; the midpoint variant is
chosen and used consistently for encode and for the reconstruction check). -/
def reconstructQ (lb ub : ℚ) (r : ℕ) (c : ℕ) : ℚ :=
  lb + ((c : ℚ) + 1 / 2) * binWidth lb ub r

/-- Modelled from the spec: the quantization error is the value minus the
reconstructed discretized value. -/
def qerror (lb ub : ℚ) (r : ℕ) (v : ℚ) : ℚ :=
  v - reconstructQ lb ub r (qcode lb ub r v)

/-- Modelled from the spec: quantize one time-step row, one code per
variable. -/
def quantRow (lb ub : List ℚ) (rvec : List ℕ) (row : List ℚ) : List ℕ :=
  (List.range rvec.length).map
    (fun v => qcode (lb.getD v 0) (ub.getD v 0) (rvec.getD v 0) (row.getD v 0))

/-- Modelled from the spec: per-row quantization errors, retained for
diagnostics and for the high-priority reconstruction check. -/
def errRow (lb ub : List ℚ) (rvec : List ℕ) (row : List ℚ) : List ℚ :=
  (List.range rvec.length).map
    (fun v => qerror (lb.getD v 0) (ub.getD v 0) (rvec.getD v 0) (row.getD v 0))

/-- Modelled from the spec: the binary data produced by the quantizer — the
resolution vector, the per-step integer codes and the per-step errors. -/
structure BinaryData where
  rvec : List ℕ
  codes : List (List ℕ)
  errors : List (List ℚ)
deriving DecidableEq

/-- Modelled from the spec: per-variable quantization diagnostics (observed
min and max, out-of-bounds counts).  The distributional test statistics
(Kolmogorov-Smirnov, Ljung-Box, Spearman) listed by the spec are further
diagnostic summaries of the same error sequences; no claim depends on their
values, so they are not reproduced field by field. -/
structure QuantDiag where
  nObs : ℕ
  minObs : List ℚ
  maxObs : List ℚ
  oobCount : List ℕ
deriving DecidableEq

/-- Minimum of a list of rationals, 0 for the empty list. -/
def qmin (l : List ℚ) : ℚ := l.foldl min (l.headD 0)

/-- Maximum of a list of rationals, 0 for the empty list. -/
def qmax (l : List ℚ) : ℚ := l.foldl max (l.headD 0)

/-- Column v (1-based, as in the demo notebook) of a time-major data matrix. -/
def colOf (dat : List (List ℚ)) (v : ℕ) : List ℚ :=
  dat.map (fun row => row.getD (v - 1) 0)

/-- Modelled from the spec: diagnostics computation, separated from
presentation. -/
def computeDiag (data : List (List ℚ)) (lb ub : List ℚ) (rvec : List ℕ) :
    QuantDiag :=
  { nObs := data.length
    minObs := (List.range rvec.length).map (fun v => qmin (colOf data (v + 1)))
    maxObs := (List.range rvec.length).map (fun v => qmax (colOf data (v + 1)))
    oobCount := (List.range rvec.length).map (fun v =>
      (colOf data (v + 1)).countP
        (fun x => decide (x < lb.getD v 0) || decide (ub.getD v 0 < x))) }

/-- Modelled from the spec: result of mt.bin_quant — the binary data plus the
optional diagnostics. -/
structure QuantResult where
  binary_data : BinaryData
  diagnostics : Option QuantDiag

/-- Modelled from the spec: mt.bin_quant of mic.toolbox is missing from the
snapshot.  The mode string only selects whether the statistical diagnostics
are computed (the value "notests" skips them; any other value computes them;
display versus quiet display is presentation, excluded from the core). -/
def bin_quant (data : List (List ℚ)) (lb ub : List ℚ) (rvec : List ℕ)
    (mode : String) : QuantResult :=
  { binary_data :=
      { rvec := rvec
        codes := data.map (quantRow lb ub rvec)
        errors := data.map (errRow lb ub rvec) }
    diagnostics :=
      if mode = "notests" then none else some (computeDiag data lb ub rvec) }

/-- Sum of a list of rationals. -/
def sumQ (l : List ℚ) : ℚ := l.foldl (fun a b => a + b) 0

/-- Modelled from the spec: squared Pearson correlation between two series,
used as the ranking key of the greedy selector.  Ordering absolute
correlations is equivalent to ordering squared correlations, and the square
is rational-valued, which keeps the key exactly computable.  A zero variance
yields key 0 (rational division by zero). -/
def corrSq (xs ys : List ℚ) : ℚ :=
  let n : ℚ := xs.length
  let sx := sumQ xs
  let sy := sumQ ys
  let sxy := sumQ (List.zipWith (fun a b => a * b) xs ys)
  let sxx := sumQ (xs.map (fun a => a * a))
  let syy := sumQ (ys.map (fun a => a * a))
  let c := n * sxy - sx * sy
  (c * c) / ((n * sxx - sx * sx) * (n * syy - sy * sy))

/-- Modelled from the spec: the binary series of one candidate bit.  The
spec does not state which bounds corr_perm uses for its internal
discretisation (the demo passes only the raw data and resolutions), so the
observed per-variable minimum and maximum are used as bounds; the claims do
not depend on this choice.  Variables are 1-based as in the demo notebook;
lag 0 denotes a contemporaneous bit. -/
def bitSeries (dat : List (List ℚ)) (rvec : List ℕ) (v lag b lags : ℕ) :
    List ℚ :=
  let lbv := qmin (colOf dat v)
  let ubv := qmax (colOf dat v)
  let rv := rvec.getD (v - 1) 0
  (List.range (dat.length - lags)).map (fun i =>
    cond (Nat.testBit (qcode lbv ubv rv ((dat.getD (lags + i - lag) []).getD (v - 1) 0))
      (rv - 1 - b)) 1 0)

/-- Modelled from the spec: the raw series of the target variable, aligned
past the warm-up of the given number of lags. -/
def targetSeries (dat : List (List ℚ)) (tv lags : ℕ) : List ℚ :=
  (List.range (dat.length - lags)).map
    (fun i => (dat.getD (lags + i) []).getD (tv - 1) 0)

/-- Modelled from the spec: one candidate context bit of the greedy pool — a
variable, a lag (0 = contemporaneous), a bit index, its high-priority flag
and its precomputed ranking key.  The correlations recomputed at every
iteration of the spec are identical across iterations because the data is
fixed, so they are computed once at pool construction. -/
structure Cand where
  var : ℕ
  lag : ℕ
  bit : ℕ
  isHP : Bool
  key : ℚ
deriving DecidableEq

/-- Modelled from the spec: a candidate qualifies for selection when it is
itself high-priority, or when no high-priority bit of its variable remains
in the pool (non-priority bits of a variable cannot be selected before all
of that variable's declared high-priority bits are placed). -/
def eligB (pool : List Cand) (c : Cand) : Bool :=
  c.isHP || pool.all (fun c2 => !(c2.var == c.var && c2.isHP))

/-- First maximum-key element of a list: an element is replaced only by a
strictly greater key, so ties are broken by stable input order. -/
def bestOf : List Cand → Option Cand
  | [] => none
  | c :: cs =>
    match bestOf cs with
    | none => some c
    | some b => if c.key < b.key then some b else some c

/-- Modelled from the spec: one greedy selection step — the first
maximum-key candidate among those qualifying under the high-priority
constraint. -/
def pickBest (pool : List Cand) : Option Cand :=
  bestOf (pool.filter (fun c => eligB pool c))

/-- Modelled from the spec: the greedy selection loop — pick the best
qualifying candidate, remove it from the pool, and repeat until the pool is
exhausted or maxDepth bits have been selected. -/
def selLoop : ℕ → List Cand → List Cand
  | 0, _ => []
  | fuel + 1, pool =>
    match pickBest pool with
    | none => []
    | some c => c :: selLoop fuel (pool.erase c)

/-- Pool remaining after i greedy selection steps. -/
def poolAfter : ℕ → List Cand → List Cand
  | 0, pool => pool
  | i + 1, pool =>
    match pickBest pool with
    | none => pool
    | some c => poolAfter i (pool.erase c)

/-- Modelled from the spec: the candidate pool — for each of the lags and
each variable all bits at that variable's resolution, then for each
contemporaneous conditioning variable (the entries of var_vec after the
first, which is the prediction target) all of its bits, in stable
enumeration order. -/
def buildPool (dat : List (List ℚ)) (rvec hpvec varvec : List ℕ)
    (lags : ℕ) : List Cand :=
  let tv := varvec.headD 1
  let xs := targetSeries dat tv lags
  let mk := fun (v lag b : ℕ) =>
    Cand.mk v lag b (decide (b < hpvec.getD (v - 1) 0))
      (corrSq xs (bitSeries dat rvec v lag b lags))
  ((List.range lags).flatMap (fun l =>
    (List.range rvec.length).flatMap (fun vi =>
      (List.range (rvec.getD vi 0)).map (fun b => mk (vi + 1) (l + 1) b))))
  ++ varvec.tail.flatMap (fun v =>
      (List.range (rvec.getD (v - 1) 0)).map (fun b => mk v 0 b))

/-- Modelled from the spec: an entry of the returned bit permutation — a
variable, a lag (0 = contemporaneous) and a bit index. -/
structure PermEntry where
  var : ℕ
  lag : ℕ
  bit : ℕ
deriving DecidableEq

/-- Modelled from the spec: mt.corr_perm of mic.toolbox is missing from the
snapshot.  Greedy correlation-ranked permutation of the context bits,
truncated to maxDepth entries. -/
def corr_perm (dat : List (List ℚ)) (rvec hpvec varvec : List ℕ)
    (lags d : ℕ) : List PermEntry :=
  (selLoop d (buildPool dat rvec hpvec varvec lags)).map
    (fun c => PermEntry.mk c.var c.lag c.bit)

/-- Default candidate used by proof-free list indexing. -/
def candDefault : Cand := Cand.mk 0 0 0 false 0

/-- Modelled from the spec: node state discriminant of the tagged variant —
a slot is free, a leaf, or a branch, following the Free to Leaf to Branch
state machine. -/
inductive NodeKind where
  | free
  | leaf
  | branch
deriving DecidableEq

/-- Modelled from the spec: one arena slot.  Every occupied node stores the
hash key of its context path, the binary-symbol occurrence counters, its
per-node rescaling count, its local Krichevsky-Trofimov block estimate pe
and (for branches) the cached CTW mixture weight w; for a leaf the mixture
weight coincides with the local estimate. -/
structure Node where
  kind : NodeKind
  key : ℕ
  c0 : ℕ
  c1 : ℕ
  rescal : ℕ
  pe : ℚ
  w : ℚ
deriving DecidableEq

/-- Fresh free slot contents. -/
def emptyNode : Node :=
  { kind := NodeKind.free, key := 0, c0 := 0, c1 := 0, rescal := 0, pe := 1, w := 1 }

/-- Arena of nodes, indexed by slot number; slots at and above the capacity
are never touched. -/
abbrev Arena := ℕ → Node

/-- Modelled from the spec: bounded, deterministic open-addressing probe
offsets (the spec requires a capped probe count; the exact policy is an
acknowledged open question, modelled as linear probing with 8 attempts). -/
def probeTries : List ℕ := List.range 8

/-- Modelled from the spec: probe the arena for the slot of a context key.
Returns the slot index and a freshness flag: true means the probe reached a
free slot (the key is absent and this slot would receive it), false means
the key was found; none means the bounded retries were exhausted. -/
def probeAux (cap : ℕ) (arena : Arena) (key : ℕ) : List ℕ → Option (ℕ × Bool)
  | [] => none
  | a :: rest =>
    let i := (key + a) % cap
    if (arena i).kind = NodeKind.free then some (i, true)
    else if (arena i).key = key then some (i, false)
    else probeAux cap arena key rest

/-- Bounded probe with the standard retry budget. -/
def findSlot (cap : ℕ) (arena : Arena) (key : ℕ) : Option (ℕ × Bool) :=
  probeAux cap arena key probeTries

/-- Hash key of a child path: the binary-trie numbering of the extended
prefix. -/
def childKey (key : ℕ) (b : Bool) : ℕ := 2 * key + cond b 1 0

/-- Modelled from the spec: fixed range of a symbol counter; a counter that
would pass this bound triggers a rescaling. -/
def MAXCOUNT : ℕ := 255

/-- Modelled from the spec: bump the counter of the observed symbol; if the
counter would overflow the fixed range, first halve both counters (rounding
up, preserving their ratio within rounding tolerance) and report a
rescaling event, rather than saturating or erroring. -/
def bumpCounts (c0 c1 : ℕ) (s : Bool) : ℕ × ℕ × Bool :=
  if MAXCOUNT ≤ (if s then c1 else c0) then
    let h0 := (c0 + 1) / 2
    let h1 := (c1 + 1) / 2
    if s then (h0, h1 + 1, true) else (h0 + 1, h1, true)
  else
    if s then (c0, c1 + 1, false) else (c0 + 1, c1, false)

/-- Krichevsky-Trofimov conditional estimate of the next symbol from a
node's counters: (c_s + 1/2) / (c0 + c1 + 1). -/
def ktCond (c0 c1 : ℕ) (s : Bool) : ℚ :=
  (((if s then c1 else c0 : ℕ) : ℚ) + 1 / 2) / ((c0 : ℚ) + (c1 : ℚ) + 1)

/-- Modelled from the spec: the tree's cumulative bookkeeping counters, from
which the diagnostic snapshot is derived with no arena re-scan. -/
structure TreeStats where
  leafCount : ℕ
  branchCount : ℕ
  freeCount : ℕ
  failedAllocs : ℕ
  rescalings : ℕ
  trainObs : ℕ
deriving DecidableEq

/-- Record one failed allocation. -/
def addFail (st : TreeStats) : TreeStats :=
  { st with failedAllocs := st.failedAllocs + 1 }

/-- Fresh leaf contents for a newly claimed slot. -/
def leafNodeFor (key : ℕ) : Node :=
  { kind := NodeKind.leaf, key := key, c0 := 0, c1 := 0, rescal := 0,
    pe := 1, w := 1 }

/-- Claim a free slot as a fresh leaf for the given key. -/
def allocLeafAt (arena : Arena) (st : TreeStats) (i key : ℕ) :
    Arena × TreeStats :=
  (Function.update arena i (leafNodeFor key),
   { st with leafCount := st.leafCount + 1, freeCount := st.freeCount - 1 })

/-- Promote a leaf to a branch when a second context path passes through
it. -/
def promoteAt (arena : Arena) (st : TreeStats) (i : ℕ) : Arena × TreeStats :=
  (Function.update arena i { arena i with kind := NodeKind.branch },
   { st with leafCount := st.leafCount - 1,
             branchCount := st.branchCount + 1 })

/-- Update the counters, the local estimate and the rescaling bookkeeping of
the node in slot i for an observed symbol. -/
def bumpAt (arena : Arena) (st : TreeStats) (i : ℕ) (s : Bool) :
    Arena × TreeStats :=
  let nd := arena i
  let r := bumpCounts nd.c0 nd.c1 s
  (Function.update arena i
    { nd with c0 := r.1, c1 := r.2.1,
              rescal := nd.rescal + cond r.2.2 1 0,
              pe := nd.pe * ktCond nd.c0 nd.c1 s },
   { st with rescalings := st.rescalings + cond r.2.2 1 0 })

/-- Mixture weight of the child with the given key, 1 when the child was
never allocated. -/
def childW (cap : ℕ) (arena : Arena) (key : ℕ) : ℚ :=
  match findSlot cap arena key with
  | some (i, false) => (arena i).w
  | _ => 1

/-- Modelled from the spec: refresh the cached CTW mixture weight of the
branch in slot i, w = pe / 2 + w(child0) * w(child1) / 2. -/
def updateWAt (cap : ℕ) (arena : Arena) (i : ℕ) : Arena :=
  let nd := arena i
  Function.update arena i
    { nd with w := nd.pe / 2 +
        childW cap arena (childKey nd.key false) *
          childW cap arena (childKey nd.key true) / 2 }

/-- Modelled from the spec: the training walk for one observation.  Walk the
permuted context bits from the root, locating or creating the node of each
path prefix; a fresh slot is claimed as a leaf and the walk stops there
(lazy expansion); an existing leaf that a longer context must pass through
is promoted to a branch; every node on the path folds in the observed
symbol; on allocation failure (free slot unreachable within the probe
budget) the walk stops without error — the observation's effect stays
folded into the deepest node reached — and the failed-allocation counter is
incremented.  Mixture weights along the path are refreshed bottom-up. -/
def trainDesc (cap : ℕ) (s : Bool) :
    List Bool → ℕ → Arena → TreeStats → Arena × TreeStats
  | [], key, arena, st =>
    match findSlot cap arena key with
    | none => (arena, addFail st)
    | some (i, true) =>
      let p := allocLeafAt arena st i key
      bumpAt p.1 p.2 i s
    | some (i, false) => bumpAt arena st i s
  | b :: bs, key, arena, st =>
    match findSlot cap arena key with
    | none => (arena, addFail st)
    | some (i, true) =>
      let p := allocLeafAt arena st i key
      bumpAt p.1 p.2 i s
    | some (i, false) =>
      let p1 := if (arena i).kind = NodeKind.leaf then promoteAt arena st i
                else (arena, st)
      let p2 := bumpAt p1.1 p1.2 i s
      let p3 := trainDesc cap s bs (childKey key b) p2.1 p2.2
      (updateWAt cap p3.1 i, p3.2)

/-- Integer code of variable v (1-based) at time t. -/
def codeOf (d : BinaryData) (t v : ℕ) : ℕ :=
  (d.codes.getD t []).getD (v - 1) 0

/-- Bit b (0 = most significant) of the code of variable v at time t. -/
def bitOf (d : BinaryData) (t v b : ℕ) : Bool :=
  Nat.testBit (codeOf d t v) (d.rvec.getD (v - 1) 0 - 1 - b)

/-- Modelled from the spec: the bit context of time step t — the permuted
lagged and contemporaneous bits, truncated to the tree depth. -/
def buildCtx (d : BinaryData) (perm : List PermEntry) (depth t : ℕ) :
    List Bool :=
  (perm.take depth).map (fun e => bitOf d (t - e.lag) e.var e.bit)

/-- Modelled from the spec: the predicted binary symbol of time step t.  The
spec leaves the decomposition of the target variable's multi-bit code into
per-step symbols unspecified; it is modelled as one binary symbol per time
step (the target's leading bit), on which no claim depends. -/
def symbolAt (d : BinaryData) (tv t : ℕ) : Bool := bitOf d t tv 0

/-- Modelled from the spec: the context tree — fixed-capacity hashed node
arena, the predicted variable, the resolution vector, the context
specification (lags, depth), the shared permutation, the human-readable tag
and the cumulative statistics. -/
structure ContextTree where
  capacity : ℕ
  arena : Arena
  targetVar : ℕ
  rVec : List ℕ
  lags : ℕ
  depth : ℕ
  perm : List PermEntry
  tag : String
  stats : TreeStats

/-- Modelled from the spec: the fatal error taxonomy of train — a
configuration mismatch on a continued tree, or an invalid specification. -/
inductive TrainError where
  | configMismatch (reason : String)
  | invalidSpec (reason : String)

/-- One training observation: walk the context and count the observation. -/
def trainStep (cap : ℕ) (d : BinaryData) (perm : List PermEntry)
    (depth tv : ℕ) (p : Arena × TreeStats) (t : ℕ) : Arena × TreeStats :=
  let r := trainDesc cap (symbolAt d tv t) (buildCtx d perm depth t) 1 p.1 p.2
  (r.1, { r.2 with trainObs := r.2.trainObs + 1 })

/-- Modelled from the spec: the training loop over every time step past the
lag warm-up. -/
def trainLoop (cap : ℕ) (d : BinaryData) (perm : List PermEntry)
    (depth tv lags : ℕ) (arena : Arena) (st : TreeStats) :
    Arena × TreeStats :=
  (List.range (d.codes.length - lags)).foldl
    (fun p i => trainStep cap d perm depth tv p (lags + i)) (arena, st)

/-- Statistics of a freshly initialised arena. -/
def freshStats (cap : ℕ) : TreeStats :=
  { leafCount := 0, branchCount := 0, freeCount := cap, failedAllocs := 0,
    rescalings := 0, trainObs := 0 }

/-- Arena with every slot free. -/
def freeArena : Arena := fun _ => emptyNode

/-- Modelled from the spec: mt.train of mic.toolbox is missing from the
snapshot.  With no existing tree, a fresh arena of the requested capacity is
allocated (after validating the specification); with an existing tree, the
call is validated to share the same permutation, resolution and target
variable — a mismatch is a fatal configuration error returned before any
mutation — and then training continues on the supplied tree's own
configuration. -/
def train (existing : Option ContextTree) (data : BinaryData)
    (capacity lags depth targetVar : ℕ) (tag : String)
    (perm : List PermEntry) : Except TrainError ContextTree :=
  match existing with
  | some t =>
    if t.perm ≠ perm ∨ t.rVec ≠ data.rvec ∨ t.targetVar ≠ targetVar then
      Except.error (TrainError.configMismatch
        "existing tree was built with a different permutation, resolution or target variable")
    else
      let r := trainLoop t.capacity data t.perm t.depth t.targetVar t.lags
        t.arena t.stats
      Except.ok { t with arena := r.1, stats := r.2 }
  | none =>
    if capacity = 0 ∨ lags = 0 ∨ depth = 0 then
      Except.error (TrainError.invalidSpec
        "capacity, lag count and depth must be positive")
    else
      let r := trainLoop capacity data perm depth targetVar lags freeArena
        (freshStats capacity)
      Except.ok (ContextTree.mk capacity r.1 targetVar data.rvec lags depth
        perm tag r.2)

/-- Modelled from the spec: the read-only diagnostic snapshot reported by
T.desc — capacity, node counts, failed allocations, rescalings and the
configuration, all derived from the tree's own bookkeeping counters.  The
per-insertion probe-retry summaries the spec also lists are further
projections of the same bookkeeping and are not reproduced field by
field. -/
structure TreeDesc where
  capacity : ℕ
  leafNodes : ℕ
  branchNodes : ℕ
  freeNodes : ℕ
  failedAllocs : ℕ
  rescalings : ℕ
  trainObs : ℕ
  lags : ℕ
  depth : ℕ
  rVec : List ℕ
  tag : String
deriving DecidableEq

/-- Modelled from the spec: T.desc, the diagnostic snapshot. -/
def desc (t : ContextTree) : TreeDesc :=
  { capacity := t.capacity, leafNodes := t.stats.leafCount,
    branchNodes := t.stats.branchCount, freeNodes := t.stats.freeCount,
    failedAllocs := t.stats.failedAllocs, rescalings := t.stats.rescalings,
    trainObs := t.stats.trainObs, lags := t.lags, depth := t.depth,
    rVec := t.rVec, tag := t.tag }

/-- Modelled from the spec: the scorer's result — per-observation raw scores
and Rissanen bound corrections.  Per-step scores are represented by the
probability assigned to the observed symbol (a positive rational; its
logarithm, the log-score, is finite exactly when the probability is
positive). -/
structure ScoreResult where
  score : List ℚ
  bound_corr : List ℚ
deriving DecidableEq

/-- Modelled from the spec: the Rissanen bound correction term, a function
of the model complexity (occupied nodes) relative to the sample size.  The
spec declares the exact closed form an open question and requires only a
pluggable function of these quantities. -/
def rissanen (modelNodes steps : ℕ) : ℚ := (modelNodes : ℚ) / (2 * steps)

/-- Modelled from the spec: the scoring walk for one observation — the same
context walk as training, but strictly read-only: it locates existing nodes
only, never allocates, and returns the estimate of the deepest reachable
node, starting from the ambient estimate for contexts never seen in
training. -/
def scoreDesc (cap : ℕ) (s : Bool) :
    List Bool → ℕ → Arena → ℚ → Arena × ℚ
  | [], key, arena, best =>
    match findSlot cap arena key with
    | some (i, false) => (arena, ktCond (arena i).c0 (arena i).c1 s)
    | _ => (arena, best)
  | b :: bs, key, arena, best =>
    match findSlot cap arena key with
    | some (i, false) =>
      scoreDesc cap s bs (childKey key b) arena
        (ktCond (arena i).c0 (arena i).c1 s)
    | _ => (arena, best)

/-- One scoring observation: walk the context read-only and append the
step's probability, starting from the ambient estimate 1/2. -/
def scoreStep (cap : ℕ) (d : BinaryData) (perm : List PermEntry)
    (depth tv : ℕ) (p : Arena × List ℚ) (t : ℕ) : Arena × List ℚ :=
  let r := scoreDesc cap (symbolAt d tv t) (buildCtx d perm depth t) 1 p.1
    (1 / 2)
  (r.1, p.2 ++ [r.2])

/-- Modelled from the spec: mt.score of mic.toolbox is missing from the
snapshot.  Replays the context walk over the held-out data using the tree's
own stored permutation, resolution and lags, producing one raw score and
one bound-correction entry per time step past the warm-up.  The returned
tree is the tree as left by the call, which the no-mutation claim proves
equal to the input. -/
def score (t : ContextTree) (d : BinaryData) : ContextTree × ScoreResult :=
  let n := d.codes.length - t.lags
  let r := (List.range n).foldl
    (fun p i => scoreStep t.capacity d t.perm t.depth t.targetVar p
      (t.lags + i))
    (t.arena, [])
  ({ t with arena := r.1 },
   { score := r.2,
     bound_corr := List.replicate n
       (rissanen (t.stats.leafCount + t.stats.branchCount) n) })

/-- Score a list of replications in sequence, each against the tree as left
by the previous call. -/
def scoreSeq : ContextTree → List BinaryData → ContextTree × List ScoreResult
  | t, [] => (t, [])
  | t, d :: ds =>
    let r := score t d
    let r2 := scoreSeq r.1 ds
    (r2.1, r.2 :: r2.2)

/-- Number of arena slots of a given kind below the capacity. -/
def cntKind (cap : ℕ) (arena : Arena) (k : NodeKind) : ℕ :=
  (List.range cap).countP (fun i => decide ((arena i).kind = k))

/-- Bookkeeping invariant: the stored node counts agree with the arena
contents. -/
def ArenaInv (cap : ℕ) (arena : Arena) (st : TreeStats) : Prop :=
  st.leafCount = cntKind cap arena NodeKind.leaf ∧
  st.branchCount = cntKind cap arena NodeKind.branch ∧
  st.freeCount = cntKind cap arena NodeKind.free

/-- Well-formed tree: positive capacity and consistent bookkeeping. -/
def WF (t : ContextTree) : Prop :=
  0 < t.capacity ∧ ArenaInv t.capacity t.arena t.stats

/-- Property of a train result: any returned tree reports node counts that
partition the capacity. -/
def okInvariant (r : Except TrainError ContextTree) : Prop :=
  ∀ t, r = Except.ok t →
    (desc t).leafNodes + (desc t).branchNodes + (desc t).freeNodes =
      (desc t).capacity

/-- Concrete tree used by witnesses. -/
def treeC5 : ContextTree :=
  ContextTree.mk 1 freeArena 1 [1] 1 1 [] "w" (freshStats 1)

/-! ## Theorems -/

lemma binWidth_pos {lb ub : ℚ} (r : ℕ) (h : lb < ub) : 0 < binWidth lb ub r := by
  have h2 : (0 : ℚ) < 2 ^ r := by positivity
  exact div_pos (by linarith) h2

lemma clipQ_of_mem {lb ub v : ℚ} (h1 : lb ≤ v) (h2 : v ≤ ub) :
    clipQ lb ub v = v := by
  unfold clipQ
  rw [min_eq_right h2, max_eq_right h1]

/-- Claim C3 — quantize/dequantize round trip: for bounds lb < ub, resolution
r ≥ 1 and any in-range observation v, the reconstructed value (the
observation minus the quantization error returned by the quantizer) differs
from v by at most binWidth = (ub - lb) / 2 ^ r. -/
theorem claim_C3_quant_round_trip (lb ub v : ℚ) (r : ℕ)
    (hlt : lb < ub) (hr : 1 ≤ r) (h1 : lb ≤ v) (h2 : v ≤ ub) :
    |v - (v - qerror lb ub r v)| ≤ binWidth lb ub r := by
  have hw : 0 < binWidth lb ub r := binWidth_pos r hlt
  set w := binWidth lb ub r with hwdef
  have h2r : (0 : ℚ) < 2 ^ r := by positivity
  set x := (v - lb) / w with hxdef
  have hx0 : 0 ≤ x := div_nonneg (by linarith) (le_of_lt hw)
  have hxw : x * w = v - lb := div_mul_cancel₀ _ (ne_of_gt hw)
  have hv : v = lb + x * w := by linarith
  have hxU : x ≤ ((2 ^ r : ℕ) : ℚ) := by
    push_cast
    rw [hxdef, div_le_iff₀ hw, hwdef]
    unfold binWidth
    field_simp
    linarith
  have hclip : clipQ lb ub v = v := clipQ_of_mem h1 h2
  have hfl0 : 0 ≤ ⌊x⌋ := Int.floor_nonneg.mpr hx0
  have hflU : ⌊x⌋ ≤ ((2 ^ r : ℕ) : ℤ) := by
    have h := Int.floor_le_floor hxU
    rwa [Int.floor_natCast] at h
  have hcq : qcode lb ub r v = min (2 ^ r - 1) (Int.toNat ⌊x⌋) := by
    unfold qcode
    rw [hclip, ← hwdef, ← hxdef]
  have hgoal : |qerror lb ub r v| ≤ w := by
    by_cases hcase : ⌊x⌋ ≤ ((2 ^ r : ℕ) : ℤ) - 1
    · -- interior bin: the code is exactly the floor
      have hmin : min (2 ^ r - 1) (Int.toNat ⌊x⌋) = Int.toNat ⌊x⌋ :=
        Nat.min_eq_right (by omega)
      have hfc : ((Int.toNat ⌊x⌋ : ℕ) : ℚ) = ((⌊x⌋ : ℤ) : ℚ) := by
        exact_mod_cast Int.toNat_of_nonneg hfl0
      have hfl : ((⌊x⌋ : ℤ) : ℚ) ≤ x := Int.floor_le x
      have hfu : x < ((⌊x⌋ : ℤ) : ℚ) + 1 := Int.lt_floor_add_one x
      have e1 : qerror lb ub r v = (x - ((⌊x⌋ : ℤ) : ℚ) - 1 / 2) * w := by
        unfold qerror reconstructQ
        rw [hcq, hmin, hfc, ← hwdef, hv]
        ring
      rw [e1, abs_le]
      have p1 : 0 ≤ (x - ((⌊x⌋ : ℤ) : ℚ)) * w := mul_nonneg (by linarith) hw.le
      have p2 : (x - ((⌊x⌋ : ℤ) : ℚ)) * w ≤ 1 * w :=
        mul_le_mul_of_nonneg_right (by linarith) hw.le
      constructor <;> nlinarith
    · -- top bin: the value sits on the upper bound, the code is clamped
      have hfeq : ⌊x⌋ = ((2 ^ r : ℕ) : ℤ) := by omega
      have hxeq : x = ((2 ^ r : ℕ) : ℚ) := by
        have hfl : ((⌊x⌋ : ℤ) : ℚ) ≤ x := Int.floor_le x
        rw [hfeq] at hfl
        push_cast at hfl ⊢
        push_cast at hxU
        linarith
      have hmin : min (2 ^ r - 1) (Int.toNat ⌊x⌋) = 2 ^ r - 1 :=
        Nat.min_eq_left (by omega)
      have hc1 : ((2 ^ r - 1 : ℕ) : ℚ) = ((2 ^ r : ℕ) : ℚ) - 1 := by
        have h1r : (1 : ℕ) ≤ 2 ^ r := Nat.one_le_two_pow
        push_cast [Nat.cast_sub h1r]
        ring
      have e1 : qerror lb ub r v = w / 2 := by
        unfold qerror reconstructQ
        rw [hcq, hmin, hc1, ← hwdef, hv, hxeq]
        ring
      rw [e1, abs_of_pos (by linarith)]
      linarith
  have hsimp : v - (v - qerror lb ub r v) = qerror lb ub r v := by ring
  rw [hsimp]
  exact hgoal

/-- Witness for claim C3 at a concrete input. -/
theorem claim_C3_witness :
    ((0 : ℚ) < 8 ∧ 1 ≤ 3 ∧ (0 : ℚ) ≤ 5 ∧ (5 : ℚ) ≤ 8) ∧
      |5 - (5 - qerror 0 8 3 5)| ≤ binWidth 0 8 3 :=
  ⟨⟨by norm_num, by norm_num, by norm_num, by norm_num⟩,
    claim_C3_quant_round_trip 0 8 5 3 (by norm_num) (by norm_num)
      (by norm_num) (by norm_num)⟩

/-- Claim C10 — the binary data produced by bin_quant (codes and errors)
depends only on the data, bounds and resolutions, never on the mode string:
quantizing with diagnostics enabled and disabled yields identical binary
data. -/
theorem claim_C10_mode_independent (data : List (List ℚ)) (lb ub : List ℚ)
    (rvec : List ℕ) (mode1 mode2 : String) :
    (bin_quant data lb ub rvec mode1).binary_data =
      (bin_quant data lb ub rvec mode2).binary_data := rfl

lemma bestOf_eq_none {l : List Cand} : bestOf l = none ↔ l = [] := by
  cases l with
  | nil => simp [bestOf]
  | cons a as =>
    simp only [bestOf]
    cases hb : bestOf as <;> simp [hb]
    split <;> simp

lemma bestOf_mem {l : List Cand} {c : Cand} (h : bestOf l = some c) :
    c ∈ l := by
  induction l generalizing c with
  | nil => simp [bestOf] at h
  | cons a as ih =>
    cases hb : bestOf as with
    | none =>
      simp only [bestOf, hb] at h
      simp at h
      simp [h]
    | some b =>
      simp only [bestOf, hb] at h
      by_cases hk : a.key < b.key
      · rw [if_pos hk] at h
        simp at h
        subst h
        exact List.mem_cons_of_mem _ (ih hb)
      · rw [if_neg hk] at h
        simp at h
        simp [h]

lemma bestOf_max {l : List Cand} {c : Cand} (h : bestOf l = some c) :
    ∀ x ∈ l, x.key ≤ c.key := by
  induction l generalizing c with
  | nil => simp [bestOf] at h
  | cons a as ih =>
    intro x hx
    cases hb : bestOf as with
    | none =>
      have has : as = [] := bestOf_eq_none.mp hb
      subst has
      simp only [bestOf, hb] at h
      simp at h
      subst h
      simp at hx
      simp [hx]
    | some b =>
      simp only [bestOf, hb] at h
      by_cases hk : a.key < b.key
      · rw [if_pos hk] at h
        simp at h
        subst h
        rcases List.mem_cons.mp hx with rfl | hx2
        · exact le_of_lt hk
        · exact ih hb x hx2
      · rw [if_neg hk] at h
        simp at h
        subst h
        rcases List.mem_cons.mp hx with rfl | hx2
        · exact le_refl _
        · exact le_trans (ih hb x hx2) (not_lt.mp hk)

lemma getD_mem : ∀ (l : List Cand) (j : ℕ), j < l.length →
    l.getD j candDefault ∈ l
  | [], j, h => absurd h (by simp)
  | _ :: _, 0, _ => List.mem_cons_self _ _
  | a :: as, j + 1, h =>
    List.mem_cons_of_mem a (getD_mem as j (Nat.lt_of_succ_lt_succ h))

lemma bestOf_first {l : List Cand} {c : Cand} (h : bestOf l = some c) :
    ∃ k, k < l.length ∧ l.getD k candDefault = c ∧
      ∀ m, m < k → (l.getD m candDefault).key < c.key := by
  induction l generalizing c with
  | nil => simp [bestOf] at h
  | cons a as ih =>
    cases hb : bestOf as with
    | none =>
      simp only [bestOf, hb] at h
      simp at h
      subst h
      exact ⟨0, by simp, by simp, fun m hm => absurd hm (Nat.not_lt_zero m)⟩
    | some b =>
      simp only [bestOf, hb] at h
      by_cases hk : a.key < b.key
      · rw [if_pos hk] at h
        simp at h
        subst h
        obtain ⟨k, hkl, hget, hprev⟩ := ih hb
        refine ⟨k + 1, Nat.succ_lt_succ hkl, by simpa using hget, ?_⟩
        intro m hm
        cases m with
        | zero => simpa using hk
        | succ m2 =>
          have hm2 : m2 < k := Nat.lt_of_succ_lt_succ hm
          simpa using hprev m2 hm2
      · rw [if_neg hk] at h
        simp at h
        subst h
        exact ⟨0, by simp, by simp, fun m hm => absurd hm (Nat.not_lt_zero m)⟩

lemma pickBest_mem {pool : List Cand} {c : Cand}
    (h : pickBest pool = some c) : c ∈ pool ∧ eligB pool c = true := by
  unfold pickBest at h
  have hm := bestOf_mem h
  rw [List.mem_filter] at hm
  exact hm

lemma pickBest_max {pool : List Cand} {c : Cand}
    (h : pickBest pool = some c) :
    ∀ x ∈ pool, eligB pool x = true → x.key ≤ c.key := by
  intro x hx he
  exact bestOf_max h x (List.mem_filter.mpr ⟨hx, he⟩)

lemma selLoop_subset : ∀ (fuel : ℕ) (pool : List Cand) (c : Cand),
    c ∈ selLoop fuel pool → c ∈ pool := by
  intro fuel
  induction fuel with
  | zero => intro pool c h; simp [selLoop] at h
  | succ n ih =>
    intro pool c h
    cases hp : pickBest pool with
    | none => exact absurd h (by simp [selLoop, hp])
    | some b =>
      rw [selLoop, hp] at h
      rcases List.mem_cons.mp h with rfl | h2
      · exact (pickBest_mem hp).1
      · exact List.mem_of_mem_erase (ih _ _ h2)

lemma selLoop_head_max : ∀ (fuel : ℕ) (pool : List Cand) (j : ℕ),
    j < (selLoop fuel pool).length →
    eligB pool ((selLoop fuel pool).getD j candDefault) = true →
    ((selLoop fuel pool).getD j candDefault).key ≤
      ((selLoop fuel pool).getD 0 candDefault).key := by
  intro fuel pool j hj he
  cases fuel with
  | zero => simp [selLoop] at hj
  | succ n =>
    cases hp : pickBest pool with
    | none => exact absurd hj (by simp [selLoop, hp])
    | some c =>
      simp only [selLoop, hp] at hj he ⊢
      cases j with
      | zero => exact le_refl _
      | succ j2 =>
        have hj2 : j2 < (selLoop n (pool.erase c)).length := by
          simpa using hj
        have hmem : (selLoop n (pool.erase c)).getD j2 candDefault ∈ pool :=
          List.mem_of_mem_erase (selLoop_subset n _ _ (getD_mem _ _ hj2))
        have hx := pickBest_max hp _ hmem
        simp only [List.getD_cons_succ, List.getD_cons_zero] at he ⊢
        exact hx he

/-- Claim C4 — monotonic correlation ordering of the permutation returned by
corr_perm: corr_perm is the entrywise projection of the greedy selection
selLoop over buildPool, and for any run of the greedy selection and any two
positions i < j of its output, if the bit selected at position j already
qualified under the high-priority constraint at the time position i was
selected, then the ranking key (squared correlation with the raw series of
the target, which orders exactly as the absolute correlation) of the bit at
position i is at least that of the bit at position j.  Positions where the
qualification hypothesis fails are exactly those where a high-priority
constraint forces the earlier placement of a lower-correlation bit. -/
theorem claim_C4_corr_monotone :
    (∀ (dat : List (List ℚ)) (rvec hpvec varvec : List ℕ) (lags d : ℕ),
      corr_perm dat rvec hpvec varvec lags d =
        (selLoop d (buildPool dat rvec hpvec varvec lags)).map
          (fun c => PermEntry.mk c.var c.lag c.bit)) ∧
    ∀ (fuel : ℕ) (pool : List Cand) (i j : ℕ), i < j →
      j < (selLoop fuel pool).length →
      eligB (poolAfter i pool) ((selLoop fuel pool).getD j candDefault) = true →
      ((selLoop fuel pool).getD j candDefault).key ≤
        ((selLoop fuel pool).getD i candDefault).key := by
  refine ⟨fun _ _ _ _ _ _ => rfl, ?_⟩
  suffices hgen : ∀ (i fuel : ℕ) (pool : List Cand) (j : ℕ), i < j →
      j < (selLoop fuel pool).length →
      eligB (poolAfter i pool) ((selLoop fuel pool).getD j candDefault) = true →
      ((selLoop fuel pool).getD j candDefault).key ≤
        ((selLoop fuel pool).getD i candDefault).key by
    intro fuel pool i j hij hj he
    exact hgen i fuel pool j hij hj he
  intro i
  induction i with
  | zero =>
    intro fuel pool j hij hj he
    exact selLoop_head_max fuel pool j hj he
  | succ i2 ih =>
    intro fuel pool j hij hj he
    cases fuel with
    | zero => simp [selLoop] at hj
    | succ n =>
      cases hp : pickBest pool with
      | none => exact absurd hj (by simp [selLoop, hp])
      | some c =>
        cases j with
        | zero => exact absurd hij (Nat.not_lt_zero _)
        | succ j2 =>
          simp only [selLoop, hp] at hj he ⊢
          simp only [poolAfter, hp] at he
          simp only [List.getD_cons_succ] at he ⊢
          have hj2 : j2 < (selLoop n (pool.erase c)).length := by
            simpa using hj
          exact ih n (pool.erase c) j2 (Nat.lt_of_succ_lt_succ hij) hj2 he

/-- Witness for claim C4 at a concrete input. -/
theorem claim_C4_witness :
    (0 < 1 ∧
      1 < (selLoop 2 [Cand.mk 1 1 0 false 0, Cand.mk 1 1 1 false 1]).length ∧
      eligB (poolAfter 0 [Cand.mk 1 1 0 false 0, Cand.mk 1 1 1 false 1])
        ((selLoop 2 [Cand.mk 1 1 0 false 0, Cand.mk 1 1 1 false 1]).getD 1
          candDefault) = true) ∧
      ((selLoop 2 [Cand.mk 1 1 0 false 0, Cand.mk 1 1 1 false 1]).getD 1
          candDefault).key ≤
        ((selLoop 2 [Cand.mk 1 1 0 false 0, Cand.mk 1 1 1 false 1]).getD 0
          candDefault).key :=
  ⟨⟨by decide, by decide, by decide⟩,
    claim_C4_corr_monotone.2 2 [Cand.mk 1 1 0 false 0, Cand.mk 1 1 1 false 1]
      0 1 (by decide) (by decide) (by decide)⟩

/-- Claim C9 — corr_perm is deterministic: on identical inputs it returns an
identical ordered permutation, and each greedy pick resolves correlation
ties by stable input order — the chosen candidate is the earliest
maximum-key element of the qualifying pool. -/
theorem claim_C9_deterministic :
    (∀ (dat1 dat2 : List (List ℚ)) (rvec1 rvec2 hp1 hp2 vv1 vv2 : List ℕ)
        (lags1 lags2 d1 d2 : ℕ),
      dat1 = dat2 → rvec1 = rvec2 → hp1 = hp2 → vv1 = vv2 →
      lags1 = lags2 → d1 = d2 →
      corr_perm dat1 rvec1 hp1 vv1 lags1 d1 =
        corr_perm dat2 rvec2 hp2 vv2 lags2 d2) ∧
    (∀ (pool : List Cand) (c : Cand), pickBest pool = some c →
      c ∈ pool ∧ eligB pool c = true ∧
      ∃ k, k < (pool.filter (fun x => eligB pool x)).length ∧
        (pool.filter (fun x => eligB pool x)).getD k candDefault = c ∧
        ∀ m, m < k →
          ((pool.filter (fun x => eligB pool x)).getD m candDefault).key <
            c.key) := by
  constructor
  · intro dat1 dat2 rvec1 rvec2 hp1 hp2 vv1 vv2 lags1 lags2 d1 d2
      h1 h2 h3 h4 h5 h6
    subst h1; subst h2; subst h3; subst h4; subst h5; subst h6
    rfl
  · intro pool c h
    obtain ⟨hm, he⟩ := pickBest_mem h
    exact ⟨hm, he, bestOf_first h⟩

/-- Witness for claim C9 at a concrete input. -/
theorem claim_C9_witness :
    Cand.mk 1 1 1 false 1 ∈ [Cand.mk 1 1 0 false 0, Cand.mk 1 1 1 false 1] ∧
      eligB [Cand.mk 1 1 0 false 0, Cand.mk 1 1 1 false 1]
        (Cand.mk 1 1 1 false 1) = true ∧
      ∃ k, k < (([Cand.mk 1 1 0 false 0, Cand.mk 1 1 1 false 1]).filter
          (fun x => eligB [Cand.mk 1 1 0 false 0, Cand.mk 1 1 1 false 1] x)).length ∧
        (([Cand.mk 1 1 0 false 0, Cand.mk 1 1 1 false 1]).filter
          (fun x => eligB [Cand.mk 1 1 0 false 0, Cand.mk 1 1 1 false 1] x)).getD
            k candDefault = Cand.mk 1 1 1 false 1 ∧
        ∀ m, m < k →
          ((([Cand.mk 1 1 0 false 0, Cand.mk 1 1 1 false 1]).filter
            (fun x => eligB [Cand.mk 1 1 0 false 0, Cand.mk 1 1 1 false 1] x)).getD
              m candDefault).key < (Cand.mk 1 1 1 false 1).key :=
  claim_C9_deterministic.2 [Cand.mk 1 1 0 false 0, Cand.mk 1 1 1 false 1]
    (Cand.mk 1 1 1 false 1) (by decide)

lemma cnt_partition (cap : ℕ) (arena : Arena) :
    cntKind cap arena NodeKind.leaf + cntKind cap arena NodeKind.branch +
      cntKind cap arena NodeKind.free = cap := by
  induction cap with
  | zero => simp [cntKind]
  | succ n ih =>
    simp only [cntKind, List.range_succ, List.countP_append,
      List.countP_cons, List.countP_nil] at *
    cases h : (arena n).kind <;> simp [h] <;> omega

lemma inv_sum {cap : ℕ} {arena : Arena} {st : TreeStats}
    (h : ArenaInv cap arena st) :
    st.leafCount + st.branchCount + st.freeCount = cap := by
  obtain ⟨h1, h2, h3⟩ := h
  rw [h1, h2, h3]
  exact cnt_partition cap arena

lemma cnt_update (cap : ℕ) (arena : Arena) (i : ℕ) (nd : Node)
    (k : NodeKind) (hi : i < cap) :
    cntKind cap (Function.update arena i nd) k +
      (if (arena i).kind = k then 1 else 0) =
    cntKind cap arena k + (if nd.kind = k then 1 else 0) := by
  induction cap with
  | zero => exact absurd hi (Nat.not_lt_zero i)
  | succ n ih =>
    simp only [cntKind, List.range_succ, List.countP_append,
      List.countP_cons, List.countP_nil] at *
    by_cases hin : i = n
    · subst hin
      have hcong : (List.range i).countP
          (fun j => decide ((Function.update arena i nd j).kind = k)) =
          (List.range i).countP (fun j => decide ((arena j).kind = k)) := by
        apply List.countP_congr
        intro j hj
        have hji : j ≠ i := Nat.ne_of_lt (List.mem_range.mp hj)
        simp [Function.update_noteq hji]
      rw [hcong, Function.update_same]
      split_ifs <;> simp_all <;> omega
    · have hlt : i < n := Nat.lt_of_le_of_ne (Nat.lt_succ_iff.mp hi) hin
      have hni : n ≠ i := fun h => hin h.symm
      rw [Function.update_noteq hni]
      have h2 := ih hlt
      omega

lemma cnt_update_same_kind {cap : ℕ} {arena : Arena} {i : ℕ} {nd : Node}
    (hk : nd.kind = (arena i).kind) (k : NodeKind) :
    cntKind cap (Function.update arena i nd) k = cntKind cap arena k := by
  unfold cntKind
  apply List.countP_congr
  intro j hj
  by_cases hji : j = i
  · subst hji
    simp [Function.update_same, hk]
  · simp [Function.update_noteq hji]

lemma cnt_pos_of_kind {cap : ℕ} {arena : Arena} {i : ℕ} {k : NodeKind}
    (hi : i < cap) (h : (arena i).kind = k) : 0 < cntKind cap arena k := by
  unfold cntKind
  rw [List.countP_pos]
  exact ⟨i, List.mem_range.mpr hi, by simp [h]⟩

lemma probeAux_some {cap : ℕ} {arena : Arena} {key : ℕ} {i : ℕ} {fr : Bool}
    (hcap : 0 < cap) :
    ∀ {l : List ℕ}, probeAux cap arena key l = some (i, fr) →
    i < cap ∧ (fr = true → (arena i).kind = NodeKind.free) ∧
      (fr = false → (arena i).kind ≠ NodeKind.free) := by
  intro l
  induction l with
  | nil => intro h; simp [probeAux] at h
  | cons a rest ih =>
    intro h
    simp only [probeAux] at h
    by_cases h1 : (arena ((key + a) % cap)).kind = NodeKind.free
    · rw [if_pos h1] at h
      simp only [Option.some.injEq, Prod.mk.injEq] at h
      obtain ⟨hieq, hfr⟩ := h
      subst hieq
      refine ⟨Nat.mod_lt _ hcap, fun _ => h1, fun hf => ?_⟩
      rw [← hfr] at hf
      simp at hf
    · rw [if_neg h1] at h
      by_cases h2 : (arena ((key + a) % cap)).key = key
      · rw [if_pos h2] at h
        simp only [Option.some.injEq, Prod.mk.injEq] at h
        obtain ⟨hieq, hfr⟩ := h
        subst hieq
        refine ⟨Nat.mod_lt _ hcap, fun ht => ?_, fun _ => h1⟩
        rw [← hfr] at ht
        simp at ht
      · rw [if_neg h2] at h
        exact ih h

lemma findSlot_some {cap : ℕ} {arena : Arena} {key i : ℕ} {fr : Bool}
    (hcap : 0 < cap) (h : findSlot cap arena key = some (i, fr)) :
    i < cap ∧ (fr = true → (arena i).kind = NodeKind.free) ∧
      (fr = false → (arena i).kind ≠ NodeKind.free) :=
  probeAux_some hcap h

lemma allocLeaf_inv {cap : ℕ} {arena : Arena} {st : TreeStats} {i key : ℕ}
    (hi : i < cap) (hfree : (arena i).kind = NodeKind.free)
    (hInv : ArenaInv cap arena st) :
    ArenaInv cap (allocLeafAt arena st i key).1 (allocLeafAt arena st i key).2 := by
  obtain ⟨hl, hb, hf⟩ := hInv
  have hfp : 0 < cntKind cap arena NodeKind.free := cnt_pos_of_kind hi hfree
  have h1 := cnt_update cap arena i (leafNodeFor key) NodeKind.leaf hi
  have h2 := cnt_update cap arena i (leafNodeFor key) NodeKind.branch hi
  have h3 := cnt_update cap arena i (leafNodeFor key) NodeKind.free hi
  rw [hfree] at h1 h2 h3
  simp only [leafNodeFor] at h1 h2 h3
  simp at h1 h2 h3
  unfold allocLeafAt ArenaInv
  simp only [leafNodeFor]
  refine ⟨?_, ?_, ?_⟩ <;> omega

lemma promote_inv {cap : ℕ} {arena : Arena} {st : TreeStats} {i : ℕ}
    (hi : i < cap) (hleaf : (arena i).kind = NodeKind.leaf)
    (hInv : ArenaInv cap arena st) :
    ArenaInv cap (promoteAt arena st i).1 (promoteAt arena st i).2 := by
  obtain ⟨hl, hb, hf⟩ := hInv
  have hlp : 0 < cntKind cap arena NodeKind.leaf := cnt_pos_of_kind hi hleaf
  have h1 := cnt_update cap arena i { arena i with kind := NodeKind.branch }
    NodeKind.leaf hi
  have h2 := cnt_update cap arena i { arena i with kind := NodeKind.branch }
    NodeKind.branch hi
  have h3 := cnt_update cap arena i { arena i with kind := NodeKind.branch }
    NodeKind.free hi
  rw [hleaf] at h1 h2 h3
  simp at h1 h2 h3
  unfold promoteAt ArenaInv
  simp only
  refine ⟨?_, ?_, ?_⟩ <;> omega

lemma bump_inv {cap : ℕ} {arena : Arena} {st : TreeStats} {i : ℕ} {s : Bool}
    (hInv : ArenaInv cap arena st) :
    ArenaInv cap (bumpAt arena st i s).1 (bumpAt arena st i s).2 := by
  obtain ⟨hl, hb, hf⟩ := hInv
  have hsame : ∀ k, cntKind cap ((bumpAt arena st i s).1) k =
      cntKind cap arena k := by
    intro k
    simp only [bumpAt]
    apply cnt_update_same_kind
    rfl
  unfold ArenaInv
  refine ⟨?_, ?_, ?_⟩
  · rw [hsame]; exact hl
  · rw [hsame]; exact hb
  · rw [hsame]; exact hf

lemma updateW_cnt {cap : ℕ} {arena : Arena} {i : ℕ} (k : NodeKind) :
    cntKind cap (updateWAt cap arena i) k = cntKind cap arena k := by
  simp only [updateWAt]
  apply cnt_update_same_kind
  rfl

lemma addFail_inv {cap : ℕ} {arena : Arena} {st : TreeStats}
    (hInv : ArenaInv cap arena st) : ArenaInv cap arena (addFail st) := by
  obtain ⟨hl, hb, hf⟩ := hInv
  exact ⟨hl, hb, hf⟩

lemma trainDesc_inv (cap : ℕ) (hcap : 0 < cap) (s : Bool) :
    ∀ (rest : List Bool) (key : ℕ) (arena : Arena) (st : TreeStats),
      ArenaInv cap arena st →
      ArenaInv cap (trainDesc cap s rest key arena st).1
        (trainDesc cap s rest key arena st).2 := by
  intro rest
  induction rest with
  | nil =>
    intro key arena st hInv
    simp only [trainDesc]
    cases hfs : findSlot cap arena key with
    | none => exact addFail_inv hInv
    | some pr =>
      obtain ⟨i, fr⟩ := pr
      obtain ⟨hi, hfree, hocc⟩ := findSlot_some hcap hfs
      cases fr with
      | true =>
        simp only
        exact bump_inv (allocLeaf_inv hi (hfree rfl) hInv)
      | false =>
        simp only
        exact bump_inv hInv
  | cons b bs ih =>
    intro key arena st hInv
    simp only [trainDesc]
    cases hfs : findSlot cap arena key with
    | none => exact addFail_inv hInv
    | some pr =>
      obtain ⟨i, fr⟩ := pr
      obtain ⟨hi, hfree, hocc⟩ := findSlot_some hcap hfs
      cases fr with
      | true =>
        simp only
        exact bump_inv (allocLeaf_inv hi (hfree rfl) hInv)
      | false =>
        simp only
        have hInv1 : ArenaInv cap
            (if (arena i).kind = NodeKind.leaf then promoteAt arena st i
             else (arena, st)).1
            (if (arena i).kind = NodeKind.leaf then promoteAt arena st i
             else (arena, st)).2 := by
          by_cases hk : (arena i).kind = NodeKind.leaf
          · rw [if_pos hk]
            exact promote_inv hi hk hInv
          · rw [if_neg hk]
            exact hInv
        have hInv2 := @bump_inv cap _ _ i s hInv1
        have hInv3 := ih (childKey key b) _ _ hInv2
        obtain ⟨hl, hb2, hf⟩ := hInv3
        exact ⟨by rw [updateW_cnt]; exact hl, by rw [updateW_cnt]; exact hb2,
          by rw [updateW_cnt]; exact hf⟩

lemma trainStep_inv {cap : ℕ} (hcap : 0 < cap) {d : BinaryData}
    {perm : List PermEntry} {depth tv : ℕ} {p : Arena × TreeStats} {t : ℕ}
    (hInv : ArenaInv cap p.1 p.2) :
    ArenaInv cap (trainStep cap d perm depth tv p t).1
      (trainStep cap d perm depth tv p t).2 := by
  unfold trainStep
  simp only
  have h := trainDesc_inv cap hcap (symbolAt d tv t) (buildCtx d perm depth t)
    1 p.1 p.2 hInv
  obtain ⟨hl, hb, hf⟩ := h
  exact ⟨hl, hb, hf⟩

lemma trainLoop_inv {cap : ℕ} (hcap : 0 < cap) (d : BinaryData)
    (perm : List PermEntry) (depth tv lags : ℕ) (arena : Arena)
    (st : TreeStats) (hInv : ArenaInv cap arena st) :
    ArenaInv cap (trainLoop cap d perm depth tv lags arena st).1
      (trainLoop cap d perm depth tv lags arena st).2 := by
  unfold trainLoop
  generalize List.range (d.codes.length - lags) = l
  induction l generalizing arena st with
  | nil => exact hInv
  | cons a as ih =>
    simp only [List.foldl_cons]
    have h1 := @trainStep_inv cap hcap d perm depth tv (arena, st)
      (lags + a) hInv
    exact ih _ _ h1

lemma freshStats_inv (cap : ℕ) : ArenaInv cap freeArena (freshStats cap) := by
  refine ⟨?_, ?_, ?_⟩
  · show (0 : ℕ) = cntKind cap freeArena NodeKind.leaf
    unfold cntKind
    symm
    rw [List.countP_eq_zero]
    intro a _
    simp [freeArena, emptyNode]
  · show (0 : ℕ) = cntKind cap freeArena NodeKind.branch
    unfold cntKind
    symm
    rw [List.countP_eq_zero]
    intro a _
    simp [freeArena, emptyNode]
  · show cap = cntKind cap freeArena NodeKind.free
    unfold cntKind
    symm
    have h : (List.range cap).countP
        (fun i => decide ((freeArena i).kind = NodeKind.free)) =
        (List.range cap).length :=
      List.countP_eq_length.mpr (fun a _ => by simp [freeArena, emptyNode])
    rw [h, List.length_range]

/-- Claim C6 — after every train call, fresh creation or continuation of any
well-formed tree, for any number of training observations, the diagnostic
snapshot desc reports leaf, branch and free node counts that sum exactly to
the arena capacity. -/
theorem claim_C6_desc_partition (existing : Option ContextTree)
    (data : BinaryData) (capacity lags depth targetVar : ℕ) (tag : String)
    (perm : List PermEntry) (hex : ∀ t0, existing = some t0 → WF t0) :
    okInvariant (train existing data capacity lags depth targetVar tag perm) := by
  intro t ht
  cases existing with
  | some t0 =>
    have hwf := hex t0 rfl
    simp only [train] at ht
    by_cases hc : t0.perm ≠ perm ∨ t0.rVec ≠ data.rvec ∨
        t0.targetVar ≠ targetVar
    · rw [if_pos hc] at ht
      exact absurd ht (by simp)
    · rw [if_neg hc] at ht
      simp only [Except.ok.injEq] at ht
      subst ht
      have hInv := trainLoop_inv hwf.1 data t0.perm t0.depth t0.targetVar
        t0.lags t0.arena t0.stats hwf.2
      simpa [desc] using inv_sum hInv
  | none =>
    simp only [train] at ht
    by_cases hc : capacity = 0 ∨ lags = 0 ∨ depth = 0
    · rw [if_pos hc] at ht
      exact absurd ht (by simp)
    · rw [if_neg hc] at ht
      simp only [Except.ok.injEq] at ht
      subst ht
      have hcap : 0 < capacity := by omega
      have hInv := trainLoop_inv hcap data perm depth targetVar lags
        freeArena (freshStats capacity) (freshStats_inv capacity)
      simpa [desc] using inv_sum hInv

/-- Witness for claim C6 at a concrete input. -/
theorem claim_C6_witness :
    okInvariant (train none (BinaryData.mk [1] [[0], [1], [1]] [[0], [0], [0]])
      4 1 1 1 "m" [PermEntry.mk 1 1 0]) :=
  claim_C6_desc_partition none
    (BinaryData.mk [1] [[0], [1], [1]] [[0], [0], [0]]) 4 1 1 1 "m"
    [PermEntry.mk 1 1 0] (fun t0 h => absurd h (by simp))

/-- Claim C5 — calling train with an existing tree whose permutation,
resolution or target variable differs from the supplied arguments is a
fatal ConfigMismatch: the call returns the configuration-mismatch error
immediately with a reason; the result carries no tree, and train is a pure
function of its inputs, so no partial mutation of the supplied tree is
committed. -/
theorem claim_C5_config_mismatch (t : ContextTree) (data : BinaryData)
    (capacity lags depth targetVar : ℕ) (tag : String)
    (perm : List PermEntry)
    (h : t.perm ≠ perm ∨ t.rVec ≠ data.rvec ∨ t.targetVar ≠ targetVar) :
    ∃ reason, train (some t) data capacity lags depth targetVar tag perm =
      Except.error (TrainError.configMismatch reason) := by
  simp only [train]
  rw [if_pos h]
  exact ⟨_, rfl⟩

/-- Witness for claim C5 at a concrete input. -/
theorem claim_C5_witness :
    ∃ reason, train (some treeC5)
      (BinaryData.mk [1] [[0], [1]] [[0], [0]]) 1 1 1 1 "w"
      [PermEntry.mk 1 1 0] =
      Except.error (TrainError.configMismatch reason) :=
  claim_C5_config_mismatch treeC5 (BinaryData.mk [1] [[0], [1]] [[0], [0]])
    1 1 1 1 "w" [PermEntry.mk 1 1 0] (Or.inl (by decide))

lemma scoreDesc_arena (cap : ℕ) (s : Bool) :
    ∀ (rest : List Bool) (key : ℕ) (arena : Arena) (best : ℚ),
      (scoreDesc cap s rest key arena best).1 = arena := by
  intro rest
  induction rest with
  | nil =>
    intro key arena best
    simp only [scoreDesc]
    cases hfs : findSlot cap arena key with
    | none => rfl
    | some pr =>
      obtain ⟨i, fr⟩ := pr
      cases fr <;> rfl
  | cons b bs ih =>
    intro key arena best
    simp only [scoreDesc]
    cases hfs : findSlot cap arena key with
    | none => rfl
    | some pr =>
      obtain ⟨i, fr⟩ := pr
      cases fr with
      | true => rfl
      | false => exact ih _ _ _

lemma scoreLoop_arena (cap : ℕ) (d : BinaryData) (perm : List PermEntry)
    (depth tv lags : ℕ) :
    ∀ (l : List ℕ) (p : Arena × List ℚ),
      ((l.foldl (fun p i => scoreStep cap d perm depth tv p (lags + i))
        p).1) = p.1 := by
  intro l
  induction l with
  | nil => intro p; rfl
  | cons a as ih =>
    intro p
    simp only [List.foldl_cons]
    rw [ih]
    simp only [scoreStep]
    exact scoreDesc_arena cap _ _ _ _ _

lemma score_fst (t : ContextTree) (d : BinaryData) : (score t d).1 = t := by
  simp only [score]
  rw [scoreLoop_arena]

lemma scoreSeq_map : ∀ (ds : List BinaryData) (t : ContextTree),
    (scoreSeq t ds).2 = ds.map (fun d => (score t d).2) := by
  intro ds
  induction ds with
  | nil => intro t; rfl
  | cons d ds ih =>
    intro t
    simp only [scoreSeq, List.map_cons]
    rw [score_fst, ih]

/-- Claim C1 — score never mutates the tree: the tree returned by score is
the input tree itself, so scoring twice on the same tree and data yields
bit-identical results, the diagnostic snapshot desc is unchanged by
scoring, and scoring a list of replications in sequence gives each
replication exactly the score it gets against the original tree alone,
independent of which replications were scored before it. -/
theorem claim_C1_score_no_mutation (t : ContextTree) (d : BinaryData) :
    (score t d).1 = t ∧
    (score ((score t d).1) d).2 = (score t d).2 ∧
    desc ((score t d).1) = desc t ∧
    ∀ ds : List BinaryData,
      (scoreSeq t ds).2 = ds.map (fun d2 => (score t d2).2) := by
  refine ⟨score_fst t d, by rw [score_fst t d], by rw [score_fst t d], ?_⟩
  intro ds
  exact scoreSeq_map ds t

lemma ktCond_pos (c0 c1 : ℕ) (s : Bool) :
    0 < ktCond c0 c1 s ∧ ktCond c0 c1 s ≤ 1 := by
  have hc0 : (0 : ℚ) ≤ (c0 : ℚ) := Nat.cast_nonneg c0
  have hc1 : (0 : ℚ) ≤ (c1 : ℚ) := Nat.cast_nonneg c1
  unfold ktCond
  cases s with
  | true =>
    rw [if_pos rfl]
    constructor
    · apply div_pos (by linarith) (by linarith)
    · rw [div_le_one (by linarith)]
      linarith
  | false =>
    rw [if_neg (by simp)]
    constructor
    · apply div_pos (by linarith) (by linarith)
    · rw [div_le_one (by linarith)]
      linarith

lemma scoreDesc_val (cap : ℕ) (s : Bool) :
    ∀ (rest : List Bool) (key : ℕ) (arena : Arena) (best : ℚ),
      0 < best → best ≤ 1 →
      0 < (scoreDesc cap s rest key arena best).2 ∧
        (scoreDesc cap s rest key arena best).2 ≤ 1 := by
  intro rest
  induction rest with
  | nil =>
    intro key arena best hb0 hb1
    simp only [scoreDesc]
    cases hfs : findSlot cap arena key with
    | none => exact ⟨hb0, hb1⟩
    | some pr =>
      obtain ⟨i, fr⟩ := pr
      cases fr with
      | true => exact ⟨hb0, hb1⟩
      | false => exact ktCond_pos _ _ _
  | cons b bs ih =>
    intro key arena best hb0 hb1
    simp only [scoreDesc]
    cases hfs : findSlot cap arena key with
    | none => exact ⟨hb0, hb1⟩
    | some pr =>
      obtain ⟨i, fr⟩ := pr
      cases fr with
      | true => exact ⟨hb0, hb1⟩
      | false =>
        exact ih _ _ _ (ktCond_pos (arena i).c0 (arena i).c1 s).1
          (ktCond_pos (arena i).c0 (arena i).c1 s).2

lemma scoreLoop_vals (cap : ℕ) (d : BinaryData) (perm : List PermEntry)
    (depth tv lags : ℕ) :
    ∀ (l : List ℕ) (p : Arena × List ℚ),
      (∀ q ∈ p.2, 0 < q ∧ q ≤ 1) →
      ∀ q ∈ ((l.foldl (fun p i => scoreStep cap d perm depth tv p (lags + i))
        p).2), 0 < q ∧ q ≤ 1 := by
  intro l
  induction l with
  | nil => intro p hp; exact hp
  | cons a as ih =>
    intro p hp
    simp only [List.foldl_cons]
    apply ih
    intro q hq
    simp only [scoreStep] at hq
    rcases List.mem_append.mp hq with hq1 | hq2
    · exact hp q hq1
    · have hv := scoreDesc_val cap (symbolAt d tv (lags + a))
        (buildCtx d perm depth (lags + a)) 1 p.1 (1 / 2) (by norm_num)
        (by norm_num)
      simp only [List.mem_singleton] at hq2
      subst hq2
      exact hv

/-- Claim C2 — allocation failure during training is non-fatal: with a valid
specification, train with a fresh tree always succeeds, whatever the
capacity (even capacity 1) and however many observations; continuation on a
matching tree always succeeds; when the probe for a context node fails, the
training walk stops with the observation's effect already folded into the
deepest node reached (every located node has been updated) and exactly
increments the failed-allocation counter; and every per-observation score
entry of scoring any data against any tree is a probability in (0, 1] — its
logarithm, the reported log-score, is finite and not NaN. -/
theorem claim_C2_alloc_failure_nonfatal :
    (∀ (data : BinaryData) (capacity lags depth targetVar : ℕ)
        (tag : String) (perm : List PermEntry),
      capacity ≠ 0 → lags ≠ 0 → depth ≠ 0 →
      ∃ t, train none data capacity lags depth targetVar tag perm =
        Except.ok t) ∧
    (∀ (t : ContextTree) (data : BinaryData)
        (capacity lags depth targetVar : ℕ) (tag : String)
        (perm : List PermEntry),
      t.perm = perm → t.rVec = data.rvec → t.targetVar = targetVar →
      ∃ t2, train (some t) data capacity lags depth targetVar tag perm =
        Except.ok t2) ∧
    (∀ (cap : ℕ) (s : Bool) (rest : List Bool) (key : ℕ) (arena : Arena)
        (st : TreeStats),
      findSlot cap arena key = none →
      trainDesc cap s rest key arena st = (arena, addFail st)) ∧
    (∀ (t : ContextTree) (d : BinaryData),
      ∀ q ∈ ((score t d).2).score, 0 < q ∧ q ≤ 1) := by
  refine ⟨?_, ?_, ?_, ?_⟩
  · intro data capacity lags depth targetVar tag perm hc hl hd
    simp only [train]
    rw [if_neg (by omega)]
    exact ⟨_, rfl⟩
  · intro t data capacity lags depth targetVar tag perm h1 h2 h3
    simp only [train]
    rw [if_neg (by simp [h1, h2, h3])]
    exact ⟨_, rfl⟩
  · intro cap s rest key arena st hfind
    cases rest with
    | nil =>
      simp only [trainDesc]
      rw [hfind]
    | cons b bs =>
      simp only [trainDesc]
      rw [hfind]
  · intro t d q hq
    simp only [score] at hq
    exact scoreLoop_vals t.capacity d t.perm t.depth t.targetVar t.lags
      (List.range (d.codes.length - t.lags)) (t.arena, [])
      (by intro q2 hq2; simp at hq2) q hq

/-- Witness for claim C2 at a concrete input. -/
theorem claim_C2_witness :
    ∃ t, train none (BinaryData.mk [1] [[0], [1], [1]] [[0], [0], [0]])
      1 1 1 1 "m" [PermEntry.mk 1 1 0] = Except.ok t :=
  claim_C2_alloc_failure_nonfatal.1
    (BinaryData.mk [1] [[0], [1], [1]] [[0], [0], [0]]) 1 1 1 1 "m"
    [PermEntry.mk 1 1 0] (by decide) (by decide) (by decide)

lemma scoreLoop_len (cap : ℕ) (d : BinaryData) (perm : List PermEntry)
    (depth tv lags : ℕ) :
    ∀ (l : List ℕ) (p : Arena × List ℚ),
      ((l.foldl (fun p i => scoreStep cap d perm depth tv p (lags + i))
        p).2).length = p.2.length + l.length := by
  intro l
  induction l with
  | nil => intro p; simp
  | cons a as ih =>
    intro p
    simp only [List.foldl_cons]
    rw [ih]
    simp only [scoreStep, List.length_append, List.length_singleton,
      List.length_cons, List.length_nil]
    omega

/-- Claim C8 — alignment of the score output: for a binary input sequence of
N observations scored against a tree trained with L lags, score returns
per-observation raw-score and bias-correction sequences each of length
N - L (the L-observation warm-up is consumed before scoring starts). -/
theorem claim_C8_score_lengths (t : ContextTree) (d : BinaryData) :
    ((score t d).2).score.length = d.codes.length - t.lags ∧
    ((score t d).2).bound_corr.length = d.codes.length - t.lags := by
  constructor
  · simp only [score]
    rw [scoreLoop_len]
    simp
  · simp [score]

/-- Claim C7 — counter rescaling: whenever the observed symbol's counter
would overflow the fixed range during a training update, bumpCounts (the
update applied by the walk at every located node, leaves included) halves
both symbol counters — rounding up, so each new counter is within one unit
of exactly half, preserving their ratio within rounding tolerance — then
records the observed symbol, reports exactly one rescaling event (which
bumpAt adds to the tree's rescaling counter), stays within the fixed range
rather than saturating, and raises no error (bumpCounts is total); the
general bound shows counters never exceed the range whether or not a
rescaling occurs. -/
theorem claim_C7_rescaling (c0 c1 : ℕ) (s : Bool)
    (h0 : c0 ≤ MAXCOUNT) (h1 : c1 ≤ MAXCOUNT)
    (hov : MAXCOUNT ≤ (if s then c1 else c0)) :
    (bumpCounts c0 c1 s).2.2 = true ∧
    (s = true → (bumpCounts c0 c1 s).1 = (c0 + 1) / 2 ∧
      (bumpCounts c0 c1 s).2.1 = (c1 + 1) / 2 + 1) ∧
    (s = false → (bumpCounts c0 c1 s).1 = (c0 + 1) / 2 + 1 ∧
      (bumpCounts c0 c1 s).2.1 = (c1 + 1) / 2) ∧
    (c0 ≤ 2 * ((c0 + 1) / 2) ∧ 2 * ((c0 + 1) / 2) ≤ c0 + 1 ∧
     c1 ≤ 2 * ((c1 + 1) / 2) ∧ 2 * ((c1 + 1) / 2) ≤ c1 + 1) ∧
    ((bumpCounts c0 c1 s).1 ≤ MAXCOUNT ∧
      (bumpCounts c0 c1 s).2.1 ≤ MAXCOUNT) ∧
    (∀ (arena : Arena) (st : TreeStats) (i : ℕ),
      (arena i).c0 = c0 → (arena i).c1 = c1 →
      ((bumpAt arena st i s).2).rescalings = st.rescalings + 1) ∧
    (∀ (d0 d1 : ℕ) (s2 : Bool), d0 ≤ MAXCOUNT → d1 ≤ MAXCOUNT →
      (bumpCounts d0 d1 s2).1 ≤ MAXCOUNT ∧
        (bumpCounts d0 d1 s2).2.1 ≤ MAXCOUNT) := by
  have hM : MAXCOUNT = 255 := rfl
  have hbc : bumpCounts c0 c1 s =
      (if s then ((c0 + 1) / 2, (c1 + 1) / 2 + 1, true)
       else ((c0 + 1) / 2 + 1, (c1 + 1) / 2, true)) := by
    unfold bumpCounts
    rw [if_pos hov]
  refine ⟨?_, ?_, ?_, ?_, ?_, ?_, ?_⟩
  · rw [hbc]; cases s <;> rfl
  · intro hs; subst hs; rw [hbc]; exact ⟨rfl, rfl⟩
  · intro hs; subst hs; rw [hbc]; exact ⟨rfl, rfl⟩
  · omega
  · rw [hbc]
    cases s <;> simp <;> omega
  · intro arena st i hi0 hi1
    simp only [bumpAt]
    have : (bumpCounts (arena i).c0 (arena i).c1 s).2.2 = true := by
      rw [hi0, hi1, hbc]
      cases s <;> rfl
    rw [this]
    rfl
  · intro d0 d1 s2 hd0 hd1
    unfold bumpCounts
    by_cases hover : MAXCOUNT ≤ (if s2 then d1 else d0)
    · rw [if_pos hover]
      cases s2 <;> simp_all <;> omega
    · rw [if_neg hover]
      cases s2 <;> simp_all <;> omega

/-- Witness for claim C7 at a concrete input. -/
theorem claim_C7_witness :
    (bumpCounts 10 255 true).2.2 = true ∧
    (true = true → (bumpCounts 10 255 true).1 = (10 + 1) / 2 ∧
      (bumpCounts 10 255 true).2.1 = (255 + 1) / 2 + 1) ∧
    (true = false → (bumpCounts 10 255 true).1 = (10 + 1) / 2 + 1 ∧
      (bumpCounts 10 255 true).2.1 = (255 + 1) / 2) ∧
    (10 ≤ 2 * ((10 + 1) / 2) ∧ 2 * ((10 + 1) / 2) ≤ 10 + 1 ∧
     255 ≤ 2 * ((255 + 1) / 2) ∧ 2 * ((255 + 1) / 2) ≤ 255 + 1) ∧
    ((bumpCounts 10 255 true).1 ≤ MAXCOUNT ∧
      (bumpCounts 10 255 true).2.1 ≤ MAXCOUNT) ∧
    (∀ (arena : Arena) (st : TreeStats) (i : ℕ),
      (arena i).c0 = 10 → (arena i).c1 = 255 →
      ((bumpAt arena st i true).2).rescalings = st.rescalings + 1) ∧
    (∀ (d0 d1 : ℕ) (s2 : Bool), d0 ≤ MAXCOUNT → d1 ≤ MAXCOUNT →
      (bumpCounts d0 d1 s2).1 ≤ MAXCOUNT ∧
        (bumpCounts d0 d1 s2).2.1 ≤ MAXCOUNT) :=
  claim_C7_rescaling 10 255 true (by decide) (by decide) (by decide)
